import Mathlib

/-
  Verification of the graph-coloring repository (Graph model, the three
  solvers GreedyColoring / WelshPowellColoring / BruteForceColoring and
  their shared GraphColoringAlgorithm interface).

  Shallow embedding conventions:
  * A `Node` is identified purely by its id (the source defines `__eq__`
    and `__hash__` by id), so nodes are modelled as their `String` ids.
  * Python dicts with `Node` keys are modelled either as association
    lists (`adjacency_list`) or as functions `String → Option Nat`
    (colorings; `none` = key absent, mirroring `dict.get`).
  * `ValueError` raising operations return `Except String _`.
  * Wall-clock timestamps are abstracted as integers passed explicitly
    to the entry points (`time.time()` results); only their difference
    is ever observed by the code.
-/


def charsLt : List Char → List Char → Bool
  | [], [] => false
  | [], _ :: _ => true
  | _ :: _, [] => false
  | c :: cs, d :: ds =>
    if c.toNat < d.toNat then true
    else if d.toNat < c.toNat then false
    else charsLt cs ds


/-- `str(a) < str(b)` of the source (`get_edges`, sort tie-breaks). -/
def strLt (a b : String) : Bool := charsLt a.data b.data


/-- `a ≤ b` on ids, as used by Python's ascending sort. -/
def strLe (a b : String) : Bool := !(strLt b a)


/-- Stable insertion of an element into a list (model of Python's stable sort). -/
def insertSorted (le : α → α → Bool) (x : α) : List α → List α
  | [] => [x]
  | y :: ys => if le x y then x :: y :: ys else y :: insertSorted le x ys


/-- Stable sort; models `list.sort(key=...)` / `sorted(...)` (only the
ordering semantics matter: all sort keys used by the source are total). -/
def insertionSort (le : α → α → Bool) : List α → List α
  | [] => []
  | x :: xs => insertSorted le x (insertionSort le xs)

/-- Lookup in an association list (Python dict access with default `[]`;
the source only ever indexes `adjacency_list` at keys that are present). -/
def alGet : List (String × List String) → String → List String
  | [], _ => []
  | (k, v) :: rest, n => if k = n then v else alGet rest n


/-- In-place update of the entry for key `k` (Python `d[k].append` is
modelled as replacing the stored list by the extended one). -/
def alSet (al : List (String × List String)) (k : String) (v : List String) :
    List (String × List String) :=
  al.map (fun q => if q.1 = k then (k, v) else q)


/-- The `Graph` class: an adjacency dict plus the node set.  The node
"set" is kept in insertion order as a list; every consumer of the node
collection in the source either sorts it with a total key or is
order-insensitive. -/
structure Graph where
  adjacency_list : List (String × List String)
  nodes : List String
  deriving DecidableEq, Repr


/-- `Graph.__init__`: the empty graph. -/
def Graph.emptyGraph : Graph := ⟨[], []⟩


/-- `Graph.add_node`: rejects duplicates, otherwise registers the node
with an empty adjacency list. -/
def add_node (g : Graph) (n : String) : Except String Graph :=
  if n ∈ g.nodes then Except.error "Node already exists in the graph"
  else Except.ok ⟨g.adjacency_list ++ [(n, [])], g.nodes ++ [n]⟩


/-- `Graph.add_edge`: both endpoints must exist, self-loops are rejected,
adding an existing edge is a no-op; otherwise each endpoint is appended
to the other's neighbor list. -/
def add_edge (g : Graph) (n1 n2 : String) : Except String Graph :=
  if n1 ∉ g.nodes then Except.error "Node not in graph"
  else if n2 ∉ g.nodes then Except.error "Node not in graph"
  else if n1 = n2 then Except.error "Self-loops are not allowed"
  else if n2 ∈ alGet g.adjacency_list n1 then Except.ok g
  else
    let al1 := alSet g.adjacency_list n1 (alGet g.adjacency_list n1 ++ [n2])
    let al2 := alSet al1 n2 (alGet al1 n2 ++ [n1])
    Except.ok ⟨al2, g.nodes⟩


/-- `Graph.get_neighbors` (the defensive copy is irrelevant in a pure model). -/
def get_neighbors (g : Graph) (n : String) : List String := alGet g.adjacency_list n


/-- `Graph.get_degree`. -/
def get_degree (g : Graph) (n : String) : Nat := (get_neighbors g n).length


/-- `Graph.get_edges`: nodes sorted by string id; for each node keep the
neighbors whose id is strictly larger, so each undirected edge appears
once with the lexicographically smaller id first. -/
def get_edges (g : Graph) : List (String × String) :=
  (insertionSort strLe g.nodes).flatMap
    (fun n => ((get_neighbors g n).filter (fun m => strLt n m)).map (fun m => (n, m)))


/-- `Graph.get_max_degree`: `0` for an empty graph, otherwise the maximum degree. -/
def get_max_degree (g : Graph) : Nat :=
  if g.nodes = [] then 0
  else (g.nodes.map (fun n => get_degree g n)).foldr max 0


/-- `Graph.has_edge` (membership in the neighbor list; lookup-error paths
are not needed by the claims). -/
def has_edge (g : Graph) (n1 n2 : String) : Bool := n2 ∈ alGet g.adjacency_list n1


/-- Graphs reachable from the empty graph through successful `add_node` /
`add_edge` calls: exactly the graphs the repository can construct. -/
inductive Reachable : Graph → Prop where
  | empty : Reachable Graph.emptyGraph
  | addNode {g g' : Graph} {n : String} :
      Reachable g → add_node g n = Except.ok g' → Reachable g'
  | addEdge {g g' : Graph} {n1 n2 : String} :
      Reachable g → add_edge g n1 n2 = Except.ok g' → Reachable g'


/-- The structural invariants maintained by `Graph` (§3 of the spec),
plus the bookkeeping facts (key list = node list, no duplicate nodes)
needed to prove them inductively. -/
structure GoodGraph (g : Graph) : Prop where
  keys_eq : g.adjacency_list.map Prod.fst = g.nodes
  nodes_nodup : g.nodes.Nodup
  no_self : ∀ n, n ∉ alGet g.adjacency_list n
  symm : ∀ a b, b ∈ alGet g.adjacency_list a → a ∈ alGet g.adjacency_list b
  nbr_nodup : ∀ n, (alGet g.adjacency_list n).Nodup
  nbr_mem : ∀ a b, b ∈ alGet g.adjacency_list a → b ∈ g.nodes

/-- A coloring dict: `none` models an absent key (`dict.get` default). -/
def Coloring : Type := String → Option Nat


/-- `coloring[node] = color` (dict insert/overwrite). -/
def setColor (col : Coloring) (n : String) (c : Nat) : Coloring :=
  fun m => if m = n then some c else col m


/-- The empty coloring dict. -/
def emptyColoring : Coloring := fun _ => none


/-- State shared by all solvers (`GraphColoringAlgorithm.__init__`):
the stored coloring and the recorded execution time. -/
structure SolverState where
  coloring : Coloring
  execution_time : Int


/-- Fresh solver state (`self.coloring = {}`, `self.execution_time = 0.0`). -/
def initState : SolverState := ⟨emptyColoring, 0⟩


/-- The first-fit scan `color = 1; while color in forbidden: color += 1`,
with explicit fuel (the loop needs at most `|forbidden| + 1` steps). -/
def firstAvailAux (s : List Nat) : Nat → Nat → Nat
  | 0, c => c
  | fuel + 1, c => if c ∈ s then firstAvailAux s fuel (c + 1) else c


/-- `get_first_available_color` of `welsh_powell_coloring.py` (the same
loop appears inline in `GreedyColoring.color_graph`): the smallest
positive integer not in the forbidden set. -/
def get_first_available_color (s : List Nat) : Nat := firstAvailAux s (s.length + 1) 1


/-- The shared first-fit pass of `GreedyColoring.color_graph` and
`WelshPowellColoring._color_graph_impl`: process nodes in order, give
each the first color not used by an already-colored neighbor, starting
from the given stored coloring. -/
def colorPass (g : Graph) : List String → Coloring → Coloring
  | [], col => col
  | n :: rest, col =>
    let forbidden := (get_neighbors g n).filterMap col
    colorPass g rest (setColor col n (get_first_available_color forbidden))


/-- `nodes.sort(key=lambda n: str(n.id))` — the greedy solver's `'natural'` order. -/
def natural_order (g : Graph) : List String := insertionSort strLe g.nodes


/-- Comparator of the key `(-degree, str(id))`: higher degree first,
ties by ascending id. -/
def degreeKeyLe (g : Graph) (a b : String) : Bool :=
  if get_degree g b < get_degree g a then true
  else if get_degree g a < get_degree g b then false
  else strLe a b


/-- `nodes.sort(key=lambda n: (-degree, str(n.id)))` — the greedy
solver's `'degree'` order. -/
def degree_order (g : Graph) : List String := insertionSort (degreeKeyLe g) g.nodes


/-- `get_sorted_nodes_by_degree` of `welsh_powell_coloring.py`: same key
as the greedy degree order. -/
def get_sorted_nodes_by_degree (g : Graph) : List String :=
  insertionSort (degreeKeyLe g) g.nodes


/-- `GreedyColoring.__init__`: rejects an empty graph, then an invalid
`order_strategy` (the `graph is None` check has no pure counterpart). -/
def GreedyColoring_init (g : Graph) (order_strategy : String) : Except String SolverState :=
  if g.nodes = [] then Except.error "Graph must contain at least one node"
  else if order_strategy = "natural" ∨ order_strategy = "degree" then Except.ok initState
  else Except.error "order_strategy must be natural or degree"


/-- The coloring computed by `GreedyColoring.color_graph`: pick the order
by strategy, reset `self.coloring` to `{}`, then first-fit. -/
def greedy_compute (g : Graph) (order_strategy : String) : Coloring :=
  let nodes := if order_strategy = "natural" then natural_order g else degree_order g
  colorPass g nodes emptyColoring


/-- `GreedyColoring.color_graph`: the overriding public entry point.  It
reads `time.time()` into `start_time` (modelled by `t0`) but never
writes `self.execution_time`; it stores and returns the fresh coloring.
`t0`, `t1` are the clock values at entry and exit. -/
def greedy_color_graph (g : Graph) (order_strategy : String) (st : SolverState)
    (t0 _t1 : Int) : SolverState × Coloring :=
  let _start_time := t0
  let col := greedy_compute g order_strategy
  ({ st with coloring := col }, col)


/-- `WelshPowellColoring._color_graph_impl`: raises on an empty graph,
otherwise first-fit over the degree-sorted order, extending the stored
coloring (the implementation never clears `self.coloring`). -/
def wp_color_graph_impl (g : Graph) (st : SolverState) : Except String SolverState :=
  if g.nodes = [] then Except.error "Graph cannot be empty"
  else Except.ok { st with
    coloring := colorPass g (get_sorted_nodes_by_degree g) st.coloring }


/-- `WelshPowellColoring.__init__`: no emptiness check — it only resets
the stored coloring. -/
def WelshPowell_init (_g : Graph) : Except String SolverState := Except.ok initState


/-- The inherited `GraphColoringAlgorithm.color_graph` as used by the
Welsh-Powell solver: run the impl between two clock reads, record the
difference, return the stored coloring. -/
def wp_color_graph (g : Graph) (st : SolverState) (t0 t1 : Int) :
    Except String (SolverState × Coloring) :=
  match wp_color_graph_impl g st with
  | Except.error e => Except.error e
  | Except.ok st' =>
    Except.ok ({ st' with execution_time := t1 - t0 }, st'.coloring)


/-- `BruteForceColoring._is_safe_partial_coloring`: the node's assigned
color must differ from every colored neighbor's color. -/
def is_safe (g : Graph) (n : String) (col : Coloring) : Bool :=
  (get_neighbors g n).all fun nb =>
    match col nb with
    | none => true
    | some x => decide (col n ≠ some x)


/-- The `backtrack` closure of `_find_valid_coloring_with_k_colors`: at
each position try colors `0 … k-1` in order, keep the first assignment
that is locally safe and lets the rest complete. -/
def backtrack (g : Graph) (k : Nat) : List String → Coloring → Option Coloring
  | [], col => some col
  | n :: rest, col =>
    (List.range k).findSome? fun c =>
      let col' := setColor col n c
      if is_safe g n col' then backtrack g k rest col' else none


/-- `BruteForceColoring._find_valid_coloring_with_k_colors`. -/
def find_valid_coloring_with_k_colors (g : Graph) (nodes : List String) (k : Nat) :
    Option Coloring :=
  backtrack g k nodes emptyColoring


/-- `BruteForceColoring._color_graph_impl`: iterative deepening over
`k = 1 … min(maxDegree + 1, nodeCount)`; `none` models the fall-through
`return {}` path that leaves `self.coloring` untouched. -/
def brute_force_impl (g : Graph) : Option Coloring :=
  let nodes := g.nodes
  let upper_bound := min (get_max_degree g + 1) nodes.length
  (List.range' 1 upper_bound).findSome? fun k =>
    find_valid_coloring_with_k_colors g nodes k


/-- `BruteForceColoring.__init__`: no validation beyond the base class. -/
def BruteForce_init (_g : Graph) : Except String SolverState := Except.ok initState


/-- The inherited `color_graph` as used by the brute-force solver. -/
def brute_force_color_graph (g : Graph) (st : SolverState) (t0 t1 : Int) :
    SolverState × Coloring :=
  let st' := match brute_force_impl g with
             | some col => { st with coloring := col }
             | none => st
  let st'' := { st' with execution_time := t1 - t0 }
  (st'', st''.coloring)


/-- `GraphColoringAlgorithm.is_valid_coloring` body: scan `get_edges`,
compare the two `dict.get` lookups, reject on equality. -/
def is_valid_coloring (g : Graph) (col : Coloring) : Bool :=
  (get_edges g).all fun e => decide (col e.1 ≠ col e.2)


/-- The entry `is_valid_coloring(coloring=None)`: defaults to the
solver's stored coloring. -/
def is_valid_coloring_entry (g : Graph) (st : SolverState) (arg : Option Coloring) : Bool :=
  is_valid_coloring g (arg.getD st.coloring)


/-- `GraphColoringAlgorithm.get_chromaticity`: the number of distinct
colors among the stored dict's values.  For every coloring the solvers
store, the dict's key set is exactly the graph's node set, so the value
multiset is the list of colors over `g.nodes`; an empty dict gives `0`. -/
def get_chromaticity (g : Graph) (col : Coloring) : Nat :=
  ((g.nodes.filterMap col).dedup).length

/-- A (possibly partial) coloring with no conflict along any adjacency. -/
def ProperOn (g : Graph) (col : Coloring) : Prop :=
  ∀ a b, b ∈ get_neighbors g a → ∀ x, col a = some x → col b ≠ some x

/-- `k`-colorability with 0-based colors: exactly the assignments the
exact solver's per-`k` search looks for. -/
def Colorable (g : Graph) (k : Nat) : Prop :=
  ∃ col : Coloring, ProperOn g col ∧ ∀ n ∈ g.nodes, ∃ c, col n = some c ∧ c < k

/-- Every enumerated edge has both endpoints colored, with different colors. -/
def EdgeValid (g : Graph) (col : Coloring) : Prop :=
  ∀ e ∈ get_edges g, (col e.1).isSome ∧ (col e.2).isSome ∧ col e.1 ≠ col e.2

/-- Concrete path graph `a — b — c`, as built by three `add_node` and two
`add_edge` calls. -/
def gW : Graph := ⟨[("a", ["b"]), ("b", ["a", "c"]), ("c", ["b"])], ["a", "b", "c"]⟩

/-- Concrete single-edge graph `a — b`. -/
def gAB : Graph := ⟨[("a", ["b"]), ("b", ["a"])], ["a", "b"]⟩

/-- Concrete graph with numeric-looking string ids `"2"` and `"10"`. -/
def gNum : Graph := ⟨[("2", ["10"]), ("10", ["2"])], ["2", "10"]⟩

/-- The partial coloring `{a: 1}` used to exhibit the `dict.get` behaviour
of `is_valid_coloring`. -/
def colA : Coloring := fun s => if s = "a" then some 1 else none


theorem perm_insertSorted (le : α → α → Bool) (x : α) :
    ∀ l : List α, List.Perm (insertSorted le x l) (x :: l) := by
  intro l
  induction l with
  | nil => simp [insertSorted]
  | cons y ys ih =>
    simp only [insertSorted]
    by_cases h : le x y = true
    · simp [h]
    · simp only [h]
      exact List.Perm.trans (ih.cons y) (List.Perm.swap x y ys)

theorem perm_insertionSort (le : α → α → Bool) :
    ∀ l : List α, List.Perm (insertionSort le l) l := by
  intro l
  induction l with
  | nil => simp [insertionSort]
  | cons x xs ih =>
    exact List.Perm.trans (perm_insertSorted le x _) (ih.cons x)

theorem mem_insertionSort (le : α → α → Bool) (l : List α) (a : α) :
    a ∈ insertionSort le l ↔ a ∈ l :=
  (perm_insertionSort le l).mem_iff

theorem nodup_insertionSort (le : α → α → Bool) (l : List α) (h : l.Nodup) :
    (insertionSort le l).Nodup :=
  (perm_insertionSort le l).symm.nodup h


theorem alGet_cons (k : String) (v : List String) (rest : List (String × List String))
    (m : String) : alGet ((k, v) :: rest) m = if k = m then v else alGet rest m := rfl

theorem alSet_cons (k' : String) (v' : List String) (rest : List (String × List String))
    (k : String) (v : List String) :
    alSet ((k', v') :: rest) k v =
      (if k' = k then (k, v) else (k', v')) :: alSet rest k v := by
  simp [alSet]

theorem alGet_eq_nil_of_not_mem_keys (al : List (String × List String)) (m : String)
    (h : m ∉ al.map Prod.fst) : alGet al m = [] := by
  induction al with
  | nil => rfl
  | cons p rest ih =>
    obtain ⟨k, v⟩ := p
    simp only [List.map_cons, List.mem_cons, not_or] at h
    rw [alGet_cons, if_neg (fun hk => h.1 hk.symm)]
    exact ih h.2

theorem mem_keys_of_mem_alGet (al : List (String × List String)) (a b : String)
    (h : b ∈ alGet al a) : a ∈ al.map Prod.fst := by
  by_contra hk
  rw [alGet_eq_nil_of_not_mem_keys al a hk] at h
  exact List.not_mem_nil b h

theorem alGet_append_left (al rest : List (String × List String)) (m : String)
    (h : m ∈ al.map Prod.fst) : alGet (al ++ rest) m = alGet al m := by
  induction al with
  | nil => simp at h
  | cons p tl ih =>
    obtain ⟨k, v⟩ := p
    rw [List.cons_append, alGet_cons, alGet_cons]
    by_cases hk : k = m
    · rw [if_pos hk, if_pos hk]
    · rw [if_neg hk, if_neg hk]
      simp only [List.map_cons, List.mem_cons] at h
      exact ih (h.resolve_left (fun he => hk he.symm))

theorem alGet_append_right (al rest : List (String × List String)) (m : String)
    (h : m ∉ al.map Prod.fst) : alGet (al ++ rest) m = alGet rest m := by
  induction al with
  | nil => rfl
  | cons p tl ih =>
    obtain ⟨k, v⟩ := p
    simp only [List.map_cons, List.mem_cons, not_or] at h
    rw [List.cons_append, alGet_cons, if_neg (fun hk => h.1 hk.symm)]
    exact ih h.2

theorem alSet_map_fst (al : List (String × List String)) (k : String) (v : List String) :
    (alSet al k v).map Prod.fst = al.map Prod.fst := by
  induction al with
  | nil => rfl
  | cons p tl ih =>
    obtain ⟨k', v'⟩ := p
    rw [alSet_cons, List.map_cons, List.map_cons, ih]
    by_cases hk : k' = k
    · rw [if_pos hk, hk]
    · rw [if_neg hk]

theorem alGet_alSet_ne (al : List (String × List String)) (k m : String) (v : List String)
    (h : m ≠ k) : alGet (alSet al k v) m = alGet al m := by
  induction al with
  | nil => rfl
  | cons p tl ih =>
    obtain ⟨k', v'⟩ := p
    rw [alSet_cons]
    by_cases hk : k' = k
    · rw [if_pos hk, alGet_cons, alGet_cons,
        if_neg (fun he : k = m => h he.symm),
        if_neg (fun he : k' = m => h (hk ▸ he).symm)]
      exact ih
    · rw [if_neg hk, alGet_cons, alGet_cons]
      by_cases hm : k' = m
      · rw [if_pos hm, if_pos hm]
      · rw [if_neg hm, if_neg hm]
        exact ih

theorem alGet_alSet_self (al : List (String × List String)) (k : String) (v : List String)
    (h : k ∈ al.map Prod.fst) : alGet (alSet al k v) k = v := by
  induction al with
  | nil => simp at h
  | cons p tl ih =>
    obtain ⟨k', v'⟩ := p
    rw [alSet_cons]
    by_cases hk : k' = k
    · rw [if_pos hk, alGet_cons, if_pos rfl]
    · rw [if_neg hk, alGet_cons, if_neg hk]
      simp only [List.map_cons, List.mem_cons] at h
      exact ih (h.resolve_left (fun he => hk he.symm))

theorem mem_alSet_elim (al : List (String × List String)) (k : String) (v : List String)
    (p : String × List String) (h : p ∈ alSet al k v) :
    (p = (k, v)) ∨ (p ∈ al ∧ p.1 ≠ k) := by
  simp only [alSet, List.mem_map] at h
  obtain ⟨q, hq, he⟩ := h
  by_cases hk : q.1 = k
  · left
    rw [← he, if_pos hk]
  · right
    rw [← he, if_neg hk]
    exact ⟨hq, hk⟩


/-- `add_node` preserves the graph invariants. -/
theorem goodGraph_add_node {g g' : Graph} {n : String}
    (hg : GoodGraph g) (h : add_node g n = Except.ok g') : GoodGraph g' := by
  unfold add_node at h
  by_cases hmem : n ∈ g.nodes
  · rw [if_pos hmem] at h
    exact absurd h (by simp)
  · rw [if_neg hmem] at h
    injection h with h
    subst h
    have hnotkey : n ∉ g.adjacency_list.map Prod.fst := by
      rw [hg.keys_eq]; exact hmem
    have getlem : ∀ m, alGet (g.adjacency_list ++ [(n, [])]) m =
        if m = n then [] else alGet g.adjacency_list m := by
      intro m
      by_cases hmn : m = n
      · subst hmn
        rw [alGet_append_right _ _ _ hnotkey, if_pos rfl, alGet_cons, if_pos rfl]
      · rw [if_neg hmn]
        by_cases hk : m ∈ g.adjacency_list.map Prod.fst
        · exact alGet_append_left _ _ _ hk
        · rw [alGet_append_right _ _ _ hk, alGet_eq_nil_of_not_mem_keys _ _ hk,
            alGet_cons, if_neg (fun he : n = m => hmn he.symm)]
          rfl
    refine ⟨?_, ?_, ?_, ?_, ?_, ?_⟩
    · simp [hg.keys_eq]
    · rw [List.nodup_append]
      refine ⟨hg.nodes_nodup, List.nodup_singleton n, ?_⟩
      intro a ha hb
      simp only [List.mem_singleton] at hb
      subst hb
      exact hmem ha
    · intro m
      rw [getlem m]
      by_cases hmn : m = n
      · simp [hmn]
      · rw [if_neg hmn]
        exact hg.no_self m
    · intro a b hb
      rw [getlem a] at hb
      by_cases ha : a = n
      · rw [if_pos ha] at hb
        exact absurd hb (List.not_mem_nil b)
      · rw [if_neg ha] at hb
        have hsym := hg.symm a b hb
        have hbn : b ≠ n := by
          intro he
          subst he
          exact hnotkey (mem_keys_of_mem_alGet _ _ _ hsym)
        rw [getlem b, if_neg hbn]
        exact hsym
    · intro m
      rw [getlem m]
      by_cases hmn : m = n
      · simp [hmn]
      · rw [if_neg hmn]
        exact hg.nbr_nodup m
    · intro a b hb
      rw [getlem a] at hb
      by_cases ha : a = n
      · rw [if_pos ha] at hb
        exact absurd hb (List.not_mem_nil b)
      · rw [if_neg ha] at hb
        exact List.mem_append_left _ (hg.nbr_mem a b hb)


/-- `add_edge` preserves the graph invariants. -/
theorem goodGraph_add_edge {g g' : Graph} {n1 n2 : String}
    (hg : GoodGraph g) (h : add_edge g n1 n2 = Except.ok g') : GoodGraph g' := by
  unfold add_edge at h
  by_cases h1 : n1 ∈ g.nodes
  case neg => rw [if_pos h1] at h; exact absurd h (by simp)
  rw [if_neg (by simpa using h1)] at h
  by_cases h2 : n2 ∈ g.nodes
  case neg => rw [if_pos h2] at h; exact absurd h (by simp)
  rw [if_neg (by simpa using h2)] at h
  by_cases heq : n1 = n2
  case pos => rw [if_pos heq] at h; exact absurd h (by simp)
  rw [if_neg heq] at h
  by_cases hold : n2 ∈ alGet g.adjacency_list n1
  case pos =>
    rw [if_pos hold] at h
    injection h with h
    subst h
    exact hg
  rw [if_neg hold] at h
  simp only at h
  injection h with h
  subst h
  have hk1 : n1 ∈ g.adjacency_list.map Prod.fst := by rw [hg.keys_eq]; exact h1
  have hk2 : n2 ∈ g.adjacency_list.map Prod.fst := by rw [hg.keys_eq]; exact h2
  have hne' : n2 ≠ n1 := fun he => heq he.symm
  have hold' : n1 ∉ alGet g.adjacency_list n2 := fun hmem => hold (hg.symm n2 n1 hmem)
  set al := g.adjacency_list with hal
  set al1 := alSet al n1 (alGet al n1 ++ [n2]) with hal1
  set al2 := alSet al1 n2 (alGet al1 n2 ++ [n1]) with hal2
  have keys1 : al1.map Prod.fst = al.map Prod.fst := alSet_map_fst _ _ _
  have keys2 : al2.map Prod.fst = al.map Prod.fst := by
    rw [hal2, alSet_map_fst, keys1]
  have get1 : alGet al2 n1 = alGet al n1 ++ [n2] := by
    rw [hal2, alGet_alSet_ne _ _ _ _ heq, hal1, alGet_alSet_self _ _ _ hk1]
  have get2 : alGet al2 n2 = alGet al n2 ++ [n1] := by
    rw [hal2, alGet_alSet_self _ _ _ (by rw [keys1]; exact hk2), hal1,
      alGet_alSet_ne _ _ _ _ hne']
  have getother : ∀ m, m ≠ n1 → m ≠ n2 → alGet al2 m = alGet al m := by
    intro m hm1 hm2
    rw [hal2, alGet_alSet_ne _ _ _ _ hm2, hal1, alGet_alSet_ne _ _ _ _ hm1]
  refine ⟨?_, hg.nodes_nodup, ?_, ?_, ?_, ?_⟩
  · rw [keys2]; exact hg.keys_eq
  · -- no self-loops
    intro m
    by_cases hm1 : m = n1
    · subst hm1
      rw [get1]
      simp only [List.mem_append, List.mem_singleton]
      rintro (hmem | hmem)
      · exact hg.no_self m hmem
      · exact heq hmem
    · by_cases hm2 : m = n2
      · subst hm2
        rw [get2]
        simp only [List.mem_append, List.mem_singleton]
        rintro (hmem | hmem)
        · exact hg.no_self m hmem
        · exact hne' hmem
      · rw [getother m hm1 hm2]
        exact hg.no_self m
  · -- symmetry
    intro a b hb
    by_cases ha1 : a = n1
    · subst ha1
      rw [get1] at hb
      rcases List.mem_append.mp hb with hb | hb
      · have hsym := hg.symm a b hb
        have hbn1 : b ≠ a := fun he => hg.no_self a (he ▸ hb)
        have hbn2 : b ≠ n2 := fun he => hold (he ▸ hb)
        rw [getother b hbn1 hbn2]
        exact hsym
      · rw [List.mem_singleton] at hb
        subst hb
        rw [get2]
        exact List.mem_append_right _ (List.mem_singleton.mpr rfl)
    · by_cases ha2 : a = n2
      · subst ha2
        rw [get2] at hb
        rcases List.mem_append.mp hb with hb | hb
        · have hsym := hg.symm a b hb
          have hbn2 : b ≠ a := fun he => hg.no_self a (he ▸ hb)
          have hbn1 : b ≠ n1 := fun he => hold' (he ▸ hb)
          rw [getother b hbn1 hbn2]
          exact hsym
        · rw [List.mem_singleton] at hb
          subst hb
          rw [get1]
          exact List.mem_append_right _ (List.mem_singleton.mpr rfl)
      · rw [getother a ha1 ha2] at hb
        have hsym := hg.symm a b hb
        by_cases hb1 : b = n1
        · subst hb1
          rw [get1]
          exact List.mem_append_left _ hsym
        · by_cases hb2 : b = n2
          · subst hb2
            rw [get2]
            exact List.mem_append_left _ hsym
          · rw [getother b hb1 hb2]
            exact hsym
  · -- neighbor lists have no duplicates
    intro m
    by_cases hm1 : m = n1
    · subst hm1
      rw [get1, List.nodup_append]
      exact ⟨hg.nbr_nodup m, List.nodup_singleton n2,
        fun a ha hmem => hold ((List.mem_singleton.mp hmem) ▸ ha)⟩
    · by_cases hm2 : m = n2
      · subst hm2
        rw [get2, List.nodup_append]
        exact ⟨hg.nbr_nodup m, List.nodup_singleton n1,
          fun a ha hmem => hold' ((List.mem_singleton.mp hmem) ▸ ha)⟩
      · rw [getother m hm1 hm2]
        exact hg.nbr_nodup m
  · -- neighbors are nodes
    intro a b hb
    by_cases ha1 : a = n1
    · subst ha1
      rw [get1] at hb
      rcases List.mem_append.mp hb with hb | hb
      · exact hg.nbr_mem a b hb
      · rw [List.mem_singleton] at hb
        subst hb
        exact h2
    · by_cases ha2 : a = n2
      · subst ha2
        rw [get2] at hb
        rcases List.mem_append.mp hb with hb | hb
        · exact hg.nbr_mem a b hb
        · rw [List.mem_singleton] at hb
          subst hb
          exact h1
      · rw [getother a ha1 ha2] at hb
        exact hg.nbr_mem a b hb


/-- The empty graph satisfies the invariants. -/
theorem goodGraph_empty : GoodGraph Graph.emptyGraph := by
  refine ⟨rfl, List.nodup_nil, ?_, ?_, ?_, ?_⟩
  · intro n
    exact List.not_mem_nil n
  · intro a b hb
    exact absurd hb (List.not_mem_nil b)
  · intro n
    exact List.nodup_nil
  · intro a b hb
    exact absurd hb (List.not_mem_nil b)


/-- Every graph the repository can build satisfies the invariants. -/
theorem reachable_goodGraph {g : Graph} (h : Reachable g) : GoodGraph g := by
  induction h with
  | empty => exact goodGraph_empty
  | addNode _ hstep ih => exact goodGraph_add_node ih hstep
  | addEdge _ hstep ih => exact goodGraph_add_edge ih hstep


theorem firstAvailAux_spec (s : List Nat) :
    ∀ (fuel c : Nat), (∃ m, c ≤ m ∧ m < c + fuel ∧ m ∉ s) →
      firstAvailAux s fuel c ∉ s ∧ c ≤ firstAvailAux s fuel c ∧
        ∀ d, c ≤ d → d < firstAvailAux s fuel c → d ∈ s := by
  intro fuel
  induction fuel with
  | zero =>
    intro c ⟨m, hm1, hm2, _⟩
    omega
  | succ fuel ih =>
    intro c ⟨m, hm1, hm2, hm3⟩
    by_cases hc : c ∈ s
    · have hcm : c ≠ m := fun he => hm3 (he ▸ hc)
      have hrec := ih (c + 1) ⟨m, by omega, by omega, hm3⟩
      simp only [firstAvailAux, if_pos hc]
      refine ⟨hrec.1, by omega, ?_⟩
      intro d hd1 hd2
      by_cases hdc : d = c
      · exact hdc ▸ hc
      · exact hrec.2.2 d (by omega) hd2
    · simp only [firstAvailAux, if_neg hc]
      exact ⟨hc, Nat.le_refl c, fun d hd1 hd2 => absurd (Nat.lt_irrefl c) (by omega)⟩

theorem exists_gap (s : List Nat) : ∃ m, 1 ≤ m ∧ m < 1 + (s.length + 1) ∧ m ∉ s := by
  by_contra hcon
  push_neg at hcon
  have hsub : Finset.Icc 1 (s.length + 1) ⊆ s.toFinset := by
    intro m hm
    rw [Finset.mem_Icc] at hm
    rw [List.mem_toFinset]
    exact hcon m hm.1 (by omega)
  have hcard := Finset.card_le_card hsub
  rw [Nat.card_Icc] at hcard
  have htf := s.toFinset_card_le
  omega


/-- Characterisation of the `while color in forbidden` loop: the result
is the least positive integer outside the forbidden list. -/
theorem get_first_available_color_spec (s : List Nat) :
    get_first_available_color s ∉ s ∧ 1 ≤ get_first_available_color s ∧
      ∀ d, 1 ≤ d → d < get_first_available_color s → d ∈ s :=
  firstAvailAux_spec s (s.length + 1) 1 (exists_gap s)

theorem get_first_available_color_unique (s : List Nat) (r : Nat)
    (h1 : r ∉ s) (h2 : 1 ≤ r) (h3 : ∀ d, 1 ≤ d → d < r → d ∈ s) :
    get_first_available_color s = r := by
  obtain ⟨g1, g2, g3⟩ := get_first_available_color_spec s
  rcases Nat.lt_trichotomy (get_first_available_color s) r with h | h | h
  · exact absurd (h3 _ g2 h) g1
  · exact h
  · exact absurd (g3 r h2 h) h1

theorem get_first_available_color_le (s : List Nat) :
    get_first_available_color s ≤ s.length + 1 := by
  obtain ⟨g1, g2, g3⟩ := get_first_available_color_spec s
  by_contra hcon
  push_neg at hcon
  have hsub : Finset.Icc 1 (s.length + 1) ⊆ s.toFinset := by
    intro m hm
    rw [Finset.mem_Icc] at hm
    rw [List.mem_toFinset]
    exact g3 m hm.1 (by omega)
  have hcard := Finset.card_le_card hsub
  rw [Nat.card_Icc] at hcard
  have htf := s.toFinset_card_le
  omega

theorem setColor_self (col : Coloring) (n : String) (c : Nat) :
    setColor col n c n = some c := by simp [setColor]

theorem setColor_ne (col : Coloring) (n m : String) (c : Nat) (h : m ≠ n) :
    setColor col n c m = col m := by simp [setColor, h]


/-- Master invariant of the shared first-fit pass: it only touches the
nodes of the order list, assigns every node of the list a color in
`[1, degree + 1]`, never lets two adjacent processed nodes agree, and
never reuses the color of an already-colored node outside the list on
one of its neighbors inside the list. -/
theorem colorPass_spec (g : Graph) (hg : GoodGraph g) :
    ∀ (l : List String) (col : Coloring), l.Nodup →
      (∀ m, m ∉ l → colorPass g l col m = col m) ∧
      (∀ n ∈ l, ∃ c, colorPass g l col n = some c ∧ 1 ≤ c ∧ c ≤ get_degree g n + 1) ∧
      (∀ a b, b ∈ get_neighbors g a → a ∈ l → b ∈ l →
        colorPass g l col a ≠ colorPass g l col b) ∧
      (∀ m, m ∉ l → col m ≠ none → ∀ b ∈ l, b ∈ get_neighbors g m →
        colorPass g l col b ≠ col m) := by
  intro l
  induction l with
  | nil =>
    intro col _
    refine ⟨fun m _ => rfl, by simp, by simp, by simp⟩
  | cons n rest ih =>
    intro col hnd
    rw [List.nodup_cons] at hnd
    obtain ⟨hn, hndr⟩ := hnd
    set forb := (get_neighbors g n).filterMap col with hforb
    set c := get_first_available_color forb with hc
    set col' := setColor col n c with hcol'
    obtain ⟨s1, s2, s3⟩ := get_first_available_color_spec forb
    have hstep : colorPass g (n :: rest) col = colorPass g rest col' := rfl
    obtain ⟨ih1, ih2, ih3, ih4⟩ := ih col' hndr
    have hresn : colorPass g rest col' n = some c := by
      rw [ih1 n hn, hcol', setColor_self]
    have hcol'n : col' n = some c := by rw [hcol']; exact setColor_self col n c
    have hcol'n_ne : col' n ≠ none := by rw [hcol'n]; simp
    refine ⟨?_, ?_, ?_, ?_⟩
    · intro m hm
      rw [List.mem_cons, not_or] at hm
      rw [hstep, ih1 m hm.2, hcol', setColor_ne _ _ _ _ hm.1]
    · intro n' hn'
      rw [List.mem_cons] at hn'
      rcases hn' with hn' | hn'
      · subst hn'
        refine ⟨c, hstep ▸ hresn, s2, ?_⟩
        have hlen : forb.length ≤ get_degree g n' := by
          rw [hforb]
          exact List.length_filterMap_le _ _
        have := get_first_available_color_le forb
        omega
      · exact hstep ▸ ih2 n' hn'
    · intro a b hb ha hbmem
      rw [List.mem_cons] at ha hbmem
      rw [hstep]
      rcases ha with ha | ha
      · subst ha
        rcases hbmem with hbmem | hbmem
        · subst hbmem
          exact absurd hb (hg.no_self b)
        · have hres := ih4 a hn hcol'n_ne b hbmem hb
          intro he
          apply hres
          rw [← he, hresn, hcol'n]
      · rcases hbmem with hbmem | hbmem
        · subst hbmem
          have hadj : a ∈ get_neighbors g b := hg.symm a b hb
          have hres := ih4 b hn hcol'n_ne a ha hadj
          intro he
          apply hres
          rw [he, hresn, hcol'n]
        · exact ih3 a b hb ha hbmem
    · intro m hm hcolm b hbmem hb
      rw [List.mem_cons, not_or] at hm
      rw [List.mem_cons] at hbmem
      have hcol'm : col' m = col m := by
        rw [hcol']
        exact setColor_ne _ _ _ _ hm.1
      rw [hstep]
      rcases hbmem with hbmem | hbmem
      · subst hbmem
        rw [hresn]
        obtain ⟨x, hx⟩ := Option.ne_none_iff_exists'.mp hcolm
        rw [hx]
        have hmadj : m ∈ get_neighbors g b := hg.symm m b hb
        have hxf : x ∈ forb := by
          rw [hforb, List.mem_filterMap]
          exact ⟨m, hmadj, hx⟩
        intro he
        injection he with he
        apply s1
        rw [← hc, he]
        exact hxf
      · rw [← hcol'm]
        exact ih4 m hm.2 (by rw [hcol'm]; exact hcolm) b hbmem hb

theorem mem_get_edges (g : Graph) (hg : GoodGraph g) (a b : String) :
    (a, b) ∈ get_edges g ↔ b ∈ get_neighbors g a ∧ strLt a b = true := by
  unfold get_edges
  rw [List.mem_flatMap]
  constructor
  · rintro ⟨n, _, hmem⟩
    rw [List.mem_map] at hmem
    obtain ⟨m, hm, he⟩ := hmem
    rw [List.mem_filter] at hm
    obtain ⟨he1, he2⟩ := Prod.mk.injEq .. ▸ he
    subst he1
    subst he2
    exact ⟨hm.1, hm.2⟩
  · rintro ⟨hmem, hlt⟩
    refine ⟨a, ?_, ?_⟩
    · rw [mem_insertionSort]
      rw [← hg.keys_eq]
      exact mem_keys_of_mem_alGet _ _ _ hmem
    · rw [List.mem_map]
      exact ⟨b, List.mem_filter.mpr ⟨hmem, hlt⟩, rfl⟩

theorem fst_of_mem_edge_group (g : Graph) (n : String) (x : String × String)
    (h : x ∈ ((get_neighbors g n).filter (fun m => strLt n m)).map (fun m => (n, m))) :
    x.1 = n := by
  rw [List.mem_map] at h
  obtain ⟨m, _, he⟩ := h
  rw [← he]

theorem get_edges_nodup_aux (g : Graph) (hg : GoodGraph g) :
    ∀ ns : List String, ns.Nodup →
      (ns.flatMap (fun n =>
        ((get_neighbors g n).filter (fun m => strLt n m)).map (fun m => (n, m)))).Nodup := by
  intro ns
  induction ns with
  | nil =>
    intro _
    simp
  | cons n rest ih =>
    intro hnd
    rw [List.nodup_cons] at hnd
    rw [List.flatMap_cons, List.nodup_append]
    refine ⟨?_, ih hnd.2, ?_⟩
    · exact List.Nodup.map (fun x y he => by injection he)
        (List.Nodup.filter _ (hg.nbr_nodup n))
    · intro x hx hxr
      rw [List.mem_flatMap] at hxr
      obtain ⟨n', hn', hx'⟩ := hxr
      have h1 := fst_of_mem_edge_group g n x hx
      have h2 := fst_of_mem_edge_group g n' x hx'
      exact hnd.1 (h1 ▸ h2 ▸ hn')

theorem get_edges_nodup (g : Graph) (hg : GoodGraph g) : (get_edges g).Nodup :=
  get_edges_nodup_aux g hg _ (nodup_insertionSort _ _ hg.nodes_nodup)

theorem mem_nodes_of_edge (g : Graph) (hg : GoodGraph g) (e : String × String)
    (h : e ∈ get_edges g) : e.2 ∈ get_neighbors g e.1 ∧ e.1 ∈ g.nodes ∧ e.2 ∈ g.nodes := by
  obtain ⟨a, b⟩ := e
  rw [mem_get_edges g hg] at h
  refine ⟨h.1, ?_, hg.nbr_mem a b h.1⟩
  rw [← hg.keys_eq]
  exact mem_keys_of_mem_alGet _ _ _ h.1


/-- `is_valid_coloring` in terms of the edge list: it checks exactly that
the two `dict.get` lookups differ on every enumerated edge. -/
theorem is_valid_coloring_iff (g : Graph) (col : Coloring) :
    is_valid_coloring g col = true ↔ ∀ e ∈ get_edges g, col e.1 ≠ col e.2 := by
  unfold is_valid_coloring
  rw [List.all_eq_true]
  constructor
  · intro h e he
    exact of_decide_eq_true (h e he)
  · intro h e he
    exact decide_eq_true (h e he)


theorem is_safe_iff (g : Graph) (n : String) (col : Coloring) :
    is_safe g n col = true ↔
      ∀ nb ∈ get_neighbors g n, ∀ x, col nb = some x → col n ≠ some x := by
  unfold is_safe
  rw [List.all_eq_true]
  constructor
  · intro h nb hnb x hx
    have := h nb hnb
    rw [hx] at this
    exact of_decide_eq_true this
  · intro h nb hnb
    cases hnb' : col nb with
    | none => rfl
    | some x => exact decide_eq_true (h nb hnb x hnb')

theorem backtrack_sound (g : Graph) (hg : GoodGraph g) (k : Nat) :
    ∀ (l : List String) (init col : Coloring),
      backtrack g k l init = some col → l.Nodup → (∀ n ∈ l, init n = none) →
      (∀ m, m ∉ l → col m = init m) ∧
      (∀ n ∈ l, ∃ c, col n = some c ∧ c < k) ∧
      (ProperOn g init → ProperOn g col) := by
  intro l
  induction l with
  | nil =>
    intro init col hbt _ _
    simp only [backtrack] at hbt
    injection hbt with hbt
    subst hbt
    exact ⟨fun m _ => rfl, by simp, fun h => h⟩
  | cons n rest ih =>
    intro init col hbt hnd hinit
    rw [List.nodup_cons] at hnd
    simp only [backtrack] at hbt
    obtain ⟨c, hcmem, hc⟩ := List.exists_of_findSome?_eq_some hbt
    rw [List.mem_range] at hcmem
    by_cases hsafe : is_safe g n (setColor init n c) = true
    case neg =>
      rw [if_neg hsafe] at hc
      exact absurd hc (by simp)
    rw [if_pos hsafe] at hc
    set init' := setColor init n c with hinit'
    have hinit'rest : ∀ m ∈ rest, init' m = none := by
      intro m hm
      rw [hinit', setColor_ne _ _ _ _ (fun he => hnd.1 (by rw [← he]; exact hm))]
      exact hinit m (List.mem_cons_of_mem n hm)
    obtain ⟨ih1, ih2, ih3⟩ := ih init' col hc hnd.2 hinit'rest
    have hin : init' n = some c := by rw [hinit']; exact setColor_self _ _ _
    have hcoln : col n = some c := by rw [ih1 n hnd.1, hin]
    rw [is_safe_iff] at hsafe
    refine ⟨?_, ?_, ?_⟩
    · intro m hm
      rw [List.mem_cons, not_or] at hm
      rw [ih1 m hm.2, hinit', setColor_ne _ _ _ _ hm.1]
    · intro n' hn'
      rw [List.mem_cons] at hn'
      rcases hn' with hn' | hn'
      · exact ⟨c, hn' ▸ hcoln, hcmem⟩
      · exact ih2 n' hn'
    · intro hproper
      apply ih3
      intro a b hb x hax
      by_cases han : a = n
      · subst han
        rw [hin] at hax
        injection hax with hax
        subst hax
        intro hbx
        exact hsafe b hb c hbx hin
      · rw [hinit', setColor_ne _ _ _ _ han] at hax
        by_cases hbn : b = n
        · subst hbn
          rw [hin]
          intro he
          injection he with he
          subst he
          have hadj : a ∈ get_neighbors g b := hg.symm a b hb
          exact hsafe a hadj c (by rw [hinit', setColor_ne _ _ _ _ han]; exact hax) hin
        · rw [hinit', setColor_ne _ _ _ _ hbn]
          exact hproper a b hb x hax

theorem backtrack_complete (g : Graph) (k : Nat) :
    ∀ (l : List String) (init tot : Coloring),
      ProperOn g tot → (∀ m x, init m = some x → tot m = some x) →
      (∀ n ∈ l, ∃ c, tot n = some c ∧ c < k) →
      (backtrack g k l init).isSome := by
  intro l
  induction l with
  | nil =>
    intro init tot _ _ _
    simp [backtrack]
  | cons n rest ih =>
    intro init tot hproper hext hcover
    obtain ⟨cstar, hcstar, hck⟩ := hcover n (List.mem_cons_self n rest)
    rw [Option.isSome_iff_ne_none]
    intro hnone
    simp only [backtrack] at hnone
    rw [List.findSome?_eq_none_iff] at hnone
    have hfc := hnone cstar (List.mem_range.mpr hck)
    set init' := setColor init n cstar with hinit'
    have hin : init' n = some cstar := by rw [hinit']; exact setColor_self _ _ _
    have hext' : ∀ m x, init' m = some x → tot m = some x := by
      intro m x hm
      by_cases hmn : m = n
      · subst hmn
        rw [hin] at hm
        injection hm with hm
        subst hm
        exact hcstar
      · rw [hinit', setColor_ne _ _ _ _ hmn] at hm
        exact hext m x hm
    have hsafe : is_safe g n init' = true := by
      rw [is_safe_iff]
      intro nb hnb x hx
      rw [hin]
      intro he
      injection he with he
      subst he
      have htotnb := hext' nb cstar hx
      exact hproper n nb hnb cstar hcstar htotnb
    rw [if_pos hsafe] at hfc
    have := ih init' tot hproper hext'
      (fun n' hn' => hcover n' (List.mem_cons_of_mem n hn'))
    rw [hfc] at this
    exact absurd this (by simp)

theorem mem_nodes_of_mem_neighbors (g : Graph) (hg : GoodGraph g) (a b : String)
    (h : b ∈ get_neighbors g a) : a ∈ g.nodes := by
  rw [← hg.keys_eq]
  exact mem_keys_of_mem_alGet _ _ _ h


/-- Any first-fit pass over an order list enumerating the nodes gives both
endpoints of every adjacency a color, and different ones — whatever
coloring it starts from. -/
theorem colorPass_edge_valid (g : Graph) (hg : GoodGraph g) (ord : List String)
    (hmem : ∀ x, x ∈ ord ↔ x ∈ g.nodes) (hnd : ord.Nodup) (init : Coloring) :
    ∀ a b, b ∈ get_neighbors g a →
      (colorPass g ord init a).isSome ∧ (colorPass g ord init b).isSome ∧
      colorPass g ord init a ≠ colorPass g ord init b := by
  intro a b hb
  have ha : a ∈ ord := (hmem a).mpr (mem_nodes_of_mem_neighbors g hg a b hb)
  have hbm : b ∈ ord := (hmem b).mpr (hg.nbr_mem a b hb)
  obtain ⟨_, h2, h3, _⟩ := colorPass_spec g hg ord init hnd
  obtain ⟨ca, hca, _, _⟩ := h2 a ha
  obtain ⟨cb, hcb, _, _⟩ := h2 b hbm
  exact ⟨by rw [hca]; rfl, by rw [hcb]; rfl, h3 a b hb ha hbm⟩


/-- A first-fit pass from the empty coloring is a proper partial coloring
defined exactly on the nodes, with 1-based colors bounded by degree + 1. -/
theorem colorPass_empty_proper (g : Graph) (hg : GoodGraph g) (ord : List String)
    (hmem : ∀ x, x ∈ ord ↔ x ∈ g.nodes) (hnd : ord.Nodup) :
    ProperOn g (colorPass g ord emptyColoring) ∧
    (∀ n ∈ g.nodes, ∃ c, colorPass g ord emptyColoring n = some c ∧
      1 ≤ c ∧ c ≤ get_degree g n + 1) ∧
    (∀ m, m ∉ g.nodes → colorPass g ord emptyColoring m = none) := by
  obtain ⟨h1, h2, h3, _⟩ := colorPass_spec g hg ord emptyColoring hnd
  have hframe : ∀ m, m ∉ g.nodes → colorPass g ord emptyColoring m = none := by
    intro m hm
    rw [h1 m (fun hc => hm ((hmem m).mp hc))]
    rfl
  refine ⟨?_, fun n hn => h2 n ((hmem n).mpr hn), hframe⟩
  intro a b hb x hax
  have ha : a ∈ g.nodes := mem_nodes_of_mem_neighbors g hg a b hb
  have hbn : b ∈ g.nodes := hg.nbr_mem a b hb
  have hne := h3 a b hb ((hmem a).mpr ha) ((hmem b).mpr hbn)
  rw [hax] at hne
  exact fun he => hne he.symm

theorem le_foldr_max (l : List Nat) (d : Nat) (h : d ∈ l) : d ≤ l.foldr max 0 := by
  induction l with
  | nil => simp at h
  | cons x xs ih =>
    rw [List.mem_cons] at h
    rw [List.foldr_cons]
    rcases h with h | h
    · subst h
      exact Nat.le_max_left _ _
    · exact Nat.le_trans (ih h) (Nat.le_max_right _ _)

theorem get_degree_le_max_degree (g : Graph) (n : String) (h : n ∈ g.nodes) :
    get_degree g n ≤ get_max_degree g := by
  unfold get_max_degree
  have hne : g.nodes ≠ [] := fun he => by rw [he] at h; exact List.not_mem_nil n h
  rw [if_neg hne]
  exact le_foldr_max _ _ (List.mem_map.mpr ⟨n, h, rfl⟩)

theorem get_degree_lt_card (g : Graph) (hg : GoodGraph g) (n : String) (h : n ∈ g.nodes) :
    get_degree g n < g.nodes.length := by
  have hsub : (get_neighbors g n).toFinset ⊆ g.nodes.toFinset.erase n := by
    intro b hb
    rw [List.mem_toFinset] at hb
    rw [Finset.mem_erase, List.mem_toFinset]
    exact ⟨fun he => hg.no_self n (he ▸ hb), hg.nbr_mem n b hb⟩
  have hcard := Finset.card_le_card hsub
  rw [List.toFinset_card_of_nodup (l := get_neighbors g n) (hg.nbr_nodup n),
    Finset.card_erase_of_mem (List.mem_toFinset.mpr h)] at hcard
  have h1 : 1 ≤ g.nodes.toFinset.card :=
    Finset.card_pos.mpr ⟨n, List.mem_toFinset.mpr h⟩
  have h2 := g.nodes.toFinset_card_le
  unfold get_degree at *
  omega


theorem colorable_mono (g : Graph) {j k : Nat} (h : Colorable g j) (hjk : j ≤ k) :
    Colorable g k := by
  obtain ⟨col, h1, h2⟩ := h
  refine ⟨col, h1, ?_⟩
  intro n hn
  obtain ⟨c, hc1, hc2⟩ := h2 n hn
  exact ⟨c, hc1, Nat.lt_of_lt_of_le hc2 hjk⟩


/-- The greedy pass shifted down by one witnesses colorability with
`min(maxDegree + 1, nodeCount)` colors. -/
theorem colorable_upper_bound (g : Graph) (hg : GoodGraph g) :
    Colorable g (min (get_max_degree g + 1) g.nodes.length) := by
  obtain ⟨hproper, hcover, hframe⟩ :=
    colorPass_empty_proper g hg (natural_order g)
      (fun x => mem_insertionSort _ _ x) (nodup_insertionSort _ _ hg.nodes_nodup)
  set col := colorPass g (natural_order g) emptyColoring with hcol
  refine ⟨fun m => (col m).map (fun c => c - 1), ?_, ?_⟩
  · intro a b hb x hax
    change Option.map (fun c => c - 1) (col a) = some x at hax
    change Option.map (fun c => c - 1) (col b) ≠ some x
    have ha : a ∈ g.nodes := mem_nodes_of_mem_neighbors g hg a b hb
    have hbn : b ∈ g.nodes := hg.nbr_mem a b hb
    obtain ⟨ca, hca, hca1, _⟩ := hcover a ha
    obtain ⟨cb, hcb, hcb1, _⟩ := hcover b hbn
    rw [hca, Option.map_some'] at hax
    injection hax with hax
    rw [hcb, Option.map_some']
    intro he
    injection he with he
    have : ca = cb := by omega
    exact hproper a b hb ca hca (this ▸ hcb)
  · intro n hn
    obtain ⟨c, hc, hc1, hc2⟩ := hcover n hn
    refine ⟨c - 1, ?_, ?_⟩
    · change Option.map (fun c => c - 1) (col n) = some (c - 1)
      rw [hc, Option.map_some']
    · have hdm := get_degree_le_max_degree g n hn
      have hdc := get_degree_lt_card g hg n hn
      omega

theorem properOn_empty (g : Graph) : ProperOn g emptyColoring := by
  intro a b _ x hax
  exact absurd hax (by simp [emptyColoring])


/-- The per-`k` search succeeds exactly on the `k` the graph is colorable with. -/
theorem find_k_isSome_iff (g : Graph) (hg : GoodGraph g) (k : Nat) :
    (find_valid_coloring_with_k_colors g g.nodes k).isSome ↔ Colorable g k := by
  constructor
  · intro h
    rw [Option.isSome_iff_exists] at h
    obtain ⟨col, hcol⟩ := h
    obtain ⟨_, h2, h3⟩ := backtrack_sound g hg k g.nodes emptyColoring col hcol
      hg.nodes_nodup (fun n _ => rfl)
    exact ⟨col, h3 (properOn_empty g), h2⟩
  · rintro ⟨tot, hp, hcov⟩
    exact backtrack_complete g k g.nodes emptyColoring tot hp
      (fun m x hm => absurd hm (by simp [emptyColoring])) hcov

theorem findSome?_range'_first {α : Type} :
    ∀ (cnt s : Nat) (f : Nat → Option α) (v : α),
      (List.range' s cnt).findSome? f = some v →
      ∃ k, s ≤ k ∧ k < s + cnt ∧ f k = some v ∧ ∀ j, s ≤ j → j < k → f j = none := by
  intro cnt
  induction cnt with
  | zero =>
    intro s f v h
    simp [List.range'] at h
  | succ cnt ih =>
    intro s f v h
    rw [List.range'_succ, List.findSome?_cons] at h
    cases hfs : f s with
    | some w =>
      rw [hfs] at h
      injection h with h
      subst h
      exact ⟨s, Nat.le_refl s, by omega, hfs, fun j hj1 hj2 => absurd (Nat.lt_irrefl s) (by omega)⟩
    | none =>
      rw [hfs] at h
      obtain ⟨k, hk1, hk2, hk3, hk4⟩ := ih (s + 1) f v h
      refine ⟨k, by omega, by omega, hk3, ?_⟩
      intro j hj1 hj2
      by_cases hjs : j = s
      · exact hjs ▸ hfs
      · exact hk4 j (by omega) hj2


/-- Full behaviour of `_color_graph_impl` on a non-empty graph: the
iterative deepening returns a coloring, defined exactly on the nodes with
0-based colors below the first successful `k`, proper, and that `k` is
the least number of colors the graph admits. -/
theorem brute_force_impl_spec (g : Graph) (hg : GoodGraph g) (hne : g.nodes ≠ []) :
    ∃ k col, brute_force_impl g = some col ∧
      (∀ m, m ∉ g.nodes → col m = none) ∧
      (∀ n ∈ g.nodes, ∃ c, col n = some c ∧ c < k) ∧
      ProperOn g col ∧
      Colorable g k ∧ (∀ j, j < k → ¬ Colorable g j) := by
  have hub1 : 1 ≤ min (get_max_degree g + 1) g.nodes.length := by
    have : g.nodes.length ≠ 0 := fun he => hne (List.eq_nil_of_length_eq_zero he)
    omega
  have hsome : (brute_force_impl g).isSome := by
    rw [Option.isSome_iff_ne_none]
    intro hnone
    unfold brute_force_impl at hnone
    rw [List.findSome?_eq_none_iff] at hnone
    have hmem : min (get_max_degree g + 1) g.nodes.length ∈
        List.range' 1 (min (get_max_degree g + 1) g.nodes.length) := by
      rw [List.mem_range']
      exact ⟨min (get_max_degree g + 1) g.nodes.length - 1, by omega, by omega⟩
    have := hnone _ hmem
    have hns : ¬ (find_valid_coloring_with_k_colors g g.nodes
        (min (get_max_degree g + 1) g.nodes.length)).isSome := by
      rw [this]; simp
    rw [find_k_isSome_iff g hg] at hns
    exact hns (colorable_upper_bound g hg)
  rw [Option.isSome_iff_exists] at hsome
  obtain ⟨col, hcol⟩ := hsome
  have hcol' := hcol
  unfold brute_force_impl at hcol'
  obtain ⟨k, hk1, _, hk3, hk4⟩ := findSome?_range'_first _ _ _ _ hcol'
  obtain ⟨s1, s2, s3⟩ := backtrack_sound g hg k g.nodes emptyColoring col hk3
    hg.nodes_nodup (fun n _ => rfl)
  have hframe : ∀ m, m ∉ g.nodes → col m = none := by
    intro m hm
    rw [s1 m hm]
    rfl
  have hproper := s3 (properOn_empty g)
  refine ⟨k, col, hcol, hframe, s2, hproper, ⟨col, hproper, s2⟩, ?_⟩
  intro j hj
  by_cases hj0 : j = 0
  · subst hj0
    rintro ⟨tot, _, hcov⟩
    obtain ⟨n, hn⟩ := List.exists_mem_of_ne_nil g.nodes hne
    obtain ⟨c, _, hc2⟩ := hcov n hn
    omega
  · intro hcolorable
    rw [← find_k_isSome_iff g hg] at hcolorable
    rw [hk4 j (by omega) hj] at hcolorable
    exact absurd hcolorable (by simp)

theorem rank_lt_of_lt (D : Finset Nat) {v w : Nat} (hv : v ∈ D) (hvw : v < w) :
    (D.filter (fun u => u < v)).card < (D.filter (fun u => u < w)).card := by
  apply Finset.card_lt_card
  constructor
  · intro u hu
    rw [Finset.mem_filter] at hu ⊢
    exact ⟨hu.1, by omega⟩
  · intro hsub
    have hv' : v ∈ D.filter (fun u => u < w) := Finset.mem_filter.mpr ⟨hv, hvw⟩
    have := hsub hv'
    rw [Finset.mem_filter] at this
    omega

theorem rank_lt_card (D : Finset Nat) {v : Nat} (hv : v ∈ D) :
    (D.filter (fun u => u < v)).card < D.card := by
  apply Finset.card_lt_card
  constructor
  · exact Finset.filter_subset _ D
  · intro hsub
    have := hsub hv
    rw [Finset.mem_filter] at this
    omega


/-- A proper complete coloring with values below a minimal `k` uses
exactly `k` distinct colors: fewer used colors could be compressed into
an even smaller proper coloring, contradicting minimality. -/
theorem chromaticity_eq_min (g : Graph) (hg : GoodGraph g) (col : Coloring) (k : Nat)
    (hcover : ∀ n ∈ g.nodes, ∃ c, col n = some c ∧ c < k)
    (hproper : ProperOn g col)
    (hmin : ∀ j, j < k → ¬ Colorable g j) :
    get_chromaticity g col = k := by
  set vals := g.nodes.filterMap col with hvals
  set D := vals.toFinset with hD
  have hchrom : get_chromaticity g col = D.card := by
    rw [hD, List.card_toFinset]
    rfl
  have hmemD : ∀ x, x ∈ D ↔ ∃ n ∈ g.nodes, col n = some x := by
    intro x
    rw [hD, List.mem_toFinset, hvals, List.mem_filterMap]
  have hDsub : D ⊆ Finset.range k := by
    intro x hx
    rw [hmemD] at hx
    obtain ⟨n, hn, hxn⟩ := hx
    obtain ⟨c, hc1, hc2⟩ := hcover n hn
    rw [hc1] at hxn
    injection hxn with hxn
    rw [Finset.mem_range]
    omega
  have hle : D.card ≤ k := by
    have := Finset.card_le_card hDsub
    rwa [Finset.card_range] at this
  have hge : k ≤ D.card := by
    by_contra hcon
    push_neg at hcon
    apply hmin D.card hcon
    refine ⟨fun m => (col m).map (fun v => (D.filter (fun u => u < v)).card), ?_, ?_⟩
    · intro a b hb x hax
      change Option.map _ (col a) = some x at hax
      change Option.map _ (col b) ≠ some x
      have ha : a ∈ g.nodes := mem_nodes_of_mem_neighbors g hg a b hb
      have hbn : b ∈ g.nodes := hg.nbr_mem a b hb
      obtain ⟨ca, hca, _⟩ := hcover a ha
      obtain ⟨cb, hcb, _⟩ := hcover b hbn
      have hcaD : ca ∈ D := (hmemD ca).mpr ⟨a, ha, hca⟩
      have hcbD : cb ∈ D := (hmemD cb).mpr ⟨b, hbn, hcb⟩
      have hab : ca ≠ cb := by
        intro he
        exact hproper a b hb ca hca (he ▸ hcb)
      rw [hca, Option.map_some'] at hax
      injection hax with hax
      rw [hcb, Option.map_some']
      intro he
      injection he with he
      rw [← hax] at he
      rcases Nat.lt_trichotomy ca cb with hlt | heq | hlt
      · exact Nat.ne_of_lt (rank_lt_of_lt D hcaD hlt) he.symm
      · exact hab heq
      · exact Nat.ne_of_lt (rank_lt_of_lt D hcbD hlt) he
    · intro n hn
      obtain ⟨c, hc1, _⟩ := hcover n hn
      refine ⟨(D.filter (fun u => u < c)).card, ?_, ?_⟩
      · change Option.map _ (col n) = _
        rw [hc1, Option.map_some']
      · exact rank_lt_card D ((hmemD c).mpr ⟨n, hn, hc1⟩)
  omega


/-- In a pass whose order list is disjoint from the initial coloring's
domain, every color below an assigned color is held by some neighbor in
the final result (first-fit never skips an available color). -/
theorem colorPass_stable (g : Graph) (hg : GoodGraph g) :
    ∀ (l : List String) (col : Coloring), l.Nodup → (∀ x ∈ l, col x = none) →
      ∀ n ∈ l, ∀ d c, 1 ≤ d → colorPass g l col n = some c → d < c →
        ∃ nb ∈ get_neighbors g n, colorPass g l col nb = some d := by
  intro l
  induction l with
  | nil =>
    intro col _ _ n hn
    simp at hn
  | cons n rest ih =>
    intro col hnd hdisj n' hn' d c hd hcol hdc
    rw [List.nodup_cons] at hnd
    set forb := (get_neighbors g n).filterMap col with hforb
    set cc := get_first_available_color forb with hcc
    set col' := setColor col n cc with hcol'
    obtain ⟨s1, s2, s3⟩ := get_first_available_color_spec forb
    have hstep : colorPass g (n :: rest) col = colorPass g rest col' := rfl
    have hdisj' : ∀ x ∈ rest, col' x = none := by
      intro x hx
      rw [hcol', setColor_ne _ _ _ _ (fun he => hnd.1 (by rw [← he]; exact hx))]
      exact hdisj x (List.mem_cons_of_mem n hx)
    obtain ⟨m1, _, _, _⟩ := colorPass_spec g hg rest col' hnd.2
    rw [List.mem_cons] at hn'
    rcases hn' with hn' | hn'
    · subst hn'
      rw [hstep, m1 n' hnd.1, hcol', setColor_self] at hcol
      injection hcol with hcol
      subst hcol
      have hdf : d ∈ forb := s3 d hd hdc
      rw [hforb, List.mem_filterMap] at hdf
      obtain ⟨nb, hnb, hnbd⟩ := hdf
      refine ⟨nb, hnb, ?_⟩
      have hnbout : nb ∉ n' :: rest := by
        intro hmem
        rw [hdisj nb hmem] at hnbd
        exact absurd hnbd (by simp)
      rw [List.mem_cons, not_or] at hnbout
      rw [hstep, m1 nb hnbout.2, hcol', setColor_ne _ _ _ _ hnbout.1]
      exact hnbd
    · rw [hstep] at hcol ⊢
      exact ih col' hnd.2 hdisj' n' hn' d c hd hcol hdc


/-- Re-running the first-fit pass on its own output changes nothing: each
node is reassigned exactly the color it already has. -/
theorem colorPass_fixpoint_aux (g : Graph) (hg : GoodGraph g) (ord : List String)
    (hmem : ∀ x, x ∈ ord ↔ x ∈ g.nodes) (hnd : ord.Nodup) :
    ∀ l : List String, (∀ x ∈ l, x ∈ g.nodes) →
      colorPass g l (colorPass g ord emptyColoring) = colorPass g ord emptyColoring := by
  set col1 := colorPass g ord emptyColoring with hcol1
  obtain ⟨hproper, hcover, _⟩ := colorPass_empty_proper g hg ord hmem hnd
  intro l
  induction l with
  | nil =>
    intro _
    rfl
  | cons n rest ih =>
    intro hsub
    have hn : n ∈ g.nodes := hsub n (List.mem_cons_self n rest)
    obtain ⟨c1, hc1, hc1ge, _⟩ := hcover n hn
    have hstep : colorPass g (n :: rest) col1 =
        colorPass g rest (setColor col1 n
          (get_first_available_color ((get_neighbors g n).filterMap col1))) := rfl
    have hgfac : get_first_available_color ((get_neighbors g n).filterMap col1) = c1 := by
      apply get_first_available_color_unique
      · rw [List.mem_filterMap]
        rintro ⟨nb, hnb, hnbc⟩
        exact hproper n nb hnb c1 hc1 hnbc
      · exact hc1ge
      · intro d hd hdc
        have := colorPass_stable g hg ord emptyColoring hnd (fun x _ => rfl)
          n ((hmem n).mpr hn) d c1 hd (hcol1 ▸ hc1) hdc
        obtain ⟨nb, hnb, hnbd⟩ := this
        rw [List.mem_filterMap]
        exact ⟨nb, hnb, hcol1 ▸ hnbd⟩
    have hset : setColor col1 n c1 = col1 := by
      funext m
      by_cases hmn : m = n
      · subst hmn
        rw [setColor_self, hcol1]
        exact hc1.symm
      · rw [setColor_ne _ _ _ _ hmn]
    rw [hstep, hgfac, hset]
    exact ih (fun x hx => hsub x (List.mem_cons_of_mem n hx))

theorem colorPass_fixpoint (g : Graph) (hg : GoodGraph g) (ord : List String)
    (hmem : ∀ x, x ∈ ord ↔ x ∈ g.nodes) (hnd : ord.Nodup) :
    colorPass g ord (colorPass g ord emptyColoring) = colorPass g ord emptyColoring :=
  colorPass_fixpoint_aux g hg ord hmem hnd ord (fun x hx => (hmem x).mp hx)


theorem edgeValid_of_adjacent (g : Graph) (hg : GoodGraph g) (col : Coloring)
    (h : ∀ a b, b ∈ get_neighbors g a →
      (col a).isSome ∧ (col b).isSome ∧ col a ≠ col b) : EdgeValid g col := by
  intro e he
  obtain ⟨hadj, _, _⟩ := mem_nodes_of_edge g hg e he
  exact h e.1 e.2 hadj

theorem is_valid_of_edgeValid (g : Graph) (col : Coloring) (h : EdgeValid g col) :
    is_valid_coloring g col = true := by
  rw [is_valid_coloring_iff]
  intro e he
  exact (h e he).2.2

theorem greedy_compute_adjacent_ok (g : Graph) (hg : GoodGraph g) (strategy : String) :
    ∀ a b, b ∈ get_neighbors g a →
      ((greedy_compute g strategy) a).isSome ∧ ((greedy_compute g strategy) b).isSome ∧
      greedy_compute g strategy a ≠ greedy_compute g strategy b := by
  unfold greedy_compute
  by_cases h : strategy = "natural"
  · rw [if_pos h]
    exact colorPass_edge_valid g hg (natural_order g)
      (fun x => mem_insertionSort _ _ x) (nodup_insertionSort _ _ hg.nodes_nodup) _
  · rw [if_neg h]
    exact colorPass_edge_valid g hg (degree_order g)
      (fun x => mem_insertionSort _ _ x) (nodup_insertionSort _ _ hg.nodes_nodup) _


theorem reachable_gW : Reachable gW := by
  have h1 : Reachable (⟨[("a", [])], ["a"]⟩ : Graph) :=
    Reachable.addNode (n := "a") Reachable.empty rfl
  have h2 : Reachable (⟨[("a", []), ("b", [])], ["a", "b"]⟩ : Graph) :=
    Reachable.addNode (n := "b") h1 rfl
  have h3 : Reachable (⟨[("a", []), ("b", []), ("c", [])], ["a", "b", "c"]⟩ : Graph) :=
    Reachable.addNode (n := "c") h2 rfl
  have h4 : Reachable (⟨[("a", ["b"]), ("b", ["a"]), ("c", [])], ["a", "b", "c"]⟩ : Graph) :=
    Reachable.addEdge h3 (show add_edge _ "a" "b" = _ from rfl)
  exact Reachable.addEdge h4 (show add_edge _ "b" "c" = _ from rfl)


theorem reachable_gAB : Reachable gAB := by
  have h1 : Reachable (⟨[("a", [])], ["a"]⟩ : Graph) :=
    Reachable.addNode (n := "a") Reachable.empty rfl
  have h2 : Reachable (⟨[("a", []), ("b", [])], ["a", "b"]⟩ : Graph) :=
    Reachable.addNode (n := "b") h1 rfl
  exact Reachable.addEdge h2 (show add_edge _ "a" "b" = _ from rfl)


theorem reachable_gNum : Reachable gNum := by
  have h1 : Reachable (⟨[("2", [])], ["2"]⟩ : Graph) :=
    Reachable.addNode (n := "2") Reachable.empty rfl
  have h2 : Reachable (⟨[("2", []), ("10", [])], ["2", "10"]⟩ : Graph) :=
    Reachable.addNode (n := "10") h1 rfl
  exact Reachable.addEdge h2 (show add_edge _ "2" "10" = _ from rfl)


/-- Under Python's string comparison `"10" < "2"`, so the single edge of
`gNum` is enumerated with `"10"` first. -/
theorem gNum_edges : get_edges gNum = [("10", "2")] := by decide


/-- C1: for every constructible graph meeting the solvers' preconditions
(non-empty), the coloring returned by each of the three color entry
points is valid: every enumerated edge has both endpoints colored with
different colors, so `is_valid_coloring` on the returned coloring is true. -/
theorem C1_solvers_return_valid_colorings (g : Graph) (hreach : Reachable g)
    (hne : g.nodes ≠ []) (strategy : String) (stG stW stB : SolverState) (t0 t1 : Int) :
    (EdgeValid g (greedy_color_graph g strategy stG t0 t1).2 ∧
      is_valid_coloring g (greedy_color_graph g strategy stG t0 t1).2 = true) ∧
    (∀ out, wp_color_graph g stW t0 t1 = Except.ok out →
      EdgeValid g out.2 ∧ is_valid_coloring g out.2 = true) ∧
    (EdgeValid g (brute_force_color_graph g stB t0 t1).2 ∧
      is_valid_coloring g (brute_force_color_graph g stB t0 t1).2 = true) := by
  have hg := reachable_goodGraph hreach
  refine ⟨?_, ?_, ?_⟩
  · have hev : EdgeValid g (greedy_color_graph g strategy stG t0 t1).2 :=
      edgeValid_of_adjacent g hg _ (greedy_compute_adjacent_ok g hg strategy)
    exact ⟨hev, is_valid_of_edgeValid g _ hev⟩
  · intro out hout
    unfold wp_color_graph wp_color_graph_impl at hout
    rw [if_neg hne] at hout
    simp only at hout
    injection hout with hout
    have hcol : out.2 = colorPass g (get_sorted_nodes_by_degree g) stW.coloring := by
      rw [← hout]
    have hev : EdgeValid g out.2 := by
      rw [hcol]
      exact edgeValid_of_adjacent g hg _
        (colorPass_edge_valid g hg (get_sorted_nodes_by_degree g)
          (fun x => mem_insertionSort _ _ x)
          (nodup_insertionSort _ _ hg.nodes_nodup) stW.coloring)
    exact ⟨hev, is_valid_of_edgeValid g _ hev⟩
  · obtain ⟨k, col, himpl, _, hcover, hproper, _, _⟩ := brute_force_impl_spec g hg hne
    have hcol : (brute_force_color_graph g stB t0 t1).2 = col := by
      unfold brute_force_color_graph
      rw [himpl]
    have hev : EdgeValid g (brute_force_color_graph g stB t0 t1).2 := by
      rw [hcol]
      apply edgeValid_of_adjacent g hg
      intro a b hb
      have ha : a ∈ g.nodes := mem_nodes_of_mem_neighbors g hg a b hb
      have hbn : b ∈ g.nodes := hg.nbr_mem a b hb
      obtain ⟨ca, hca, _⟩ := hcover a ha
      obtain ⟨cb, hcb, _⟩ := hcover b hbn
      refine ⟨by rw [hca]; rfl, by rw [hcb]; rfl, ?_⟩
      rw [hca, hcb]
      intro he
      injection he with he
      exact hproper a b hb ca hca (by rw [hcb, he])
    exact ⟨hev, is_valid_of_edgeValid g _ hev⟩


/-- C1 witness: the path `a — b — c` with the natural strategy. -/
theorem C1_solvers_return_valid_colorings_witness :
    Reachable gW ∧ gW.nodes ≠ [] ∧
    ((EdgeValid gW (greedy_color_graph gW "natural" initState 0 1).2 ∧
      is_valid_coloring gW (greedy_color_graph gW "natural" initState 0 1).2 = true) ∧
    (∀ out, wp_color_graph gW initState 0 1 = Except.ok out →
      EdgeValid gW out.2 ∧ is_valid_coloring gW out.2 = true) ∧
    (EdgeValid gW (brute_force_color_graph gW initState 0 1).2 ∧
      is_valid_coloring gW (brute_force_color_graph gW initState 0 1).2 = true)) :=
  ⟨reachable_gW, by decide,
    C1_solvers_return_valid_colorings gW reachable_gW (by decide) "natural"
      initState initState initState 0 1⟩


/-- C2: on every constructible non-empty graph the exact solver's search
returns a coloring that is defined on all nodes, proper (hence valid),
and whose number of distinct colors is the first successful `k`, which is
the least `k` for which a proper complete `k`-coloring exists at all —
the chromatic number. -/
theorem C2_exact_solver_chromatic (g : Graph) (hreach : Reachable g)
    (hne : g.nodes ≠ []) :
    ∃ k col, brute_force_impl g = some col ∧
      (∀ n ∈ g.nodes, ∃ c, col n = some c ∧ c < k) ∧
      ProperOn g col ∧
      is_valid_coloring g col = true ∧
      Colorable g k ∧ (∀ j, j < k → ¬ Colorable g j) ∧
      get_chromaticity g col = k := by
  have hg := reachable_goodGraph hreach
  obtain ⟨k, col, h1, _, h3, h4, h5, h6⟩ := brute_force_impl_spec g hg hne
  have hvalid : is_valid_coloring g col = true := by
    apply is_valid_of_edgeValid
    apply edgeValid_of_adjacent g hg
    intro a b hb
    have ha : a ∈ g.nodes := mem_nodes_of_mem_neighbors g hg a b hb
    have hbn : b ∈ g.nodes := hg.nbr_mem a b hb
    obtain ⟨ca, hca, _⟩ := h3 a ha
    obtain ⟨cb, hcb, _⟩ := h3 b hbn
    refine ⟨by rw [hca]; rfl, by rw [hcb]; rfl, ?_⟩
    rw [hca, hcb]
    intro he
    injection he with he
    exact h4 a b hb ca hca (by rw [hcb, he])
  exact ⟨k, col, h1, h3, h4, hvalid, h5, h6,
    chromaticity_eq_min g hg col k h3 h4 h6⟩


/-- C2 witness: the path `a — b — c`. -/
theorem C2_exact_solver_chromatic_witness :
    Reachable gW ∧ gW.nodes ≠ [] ∧
    (∃ k col, brute_force_impl gW = some col ∧
      (∀ n ∈ gW.nodes, ∃ c, col n = some c ∧ c < k) ∧
      ProperOn gW col ∧
      is_valid_coloring gW col = true ∧
      Colorable gW k ∧ (∀ j, j < k → ¬ Colorable gW j) ∧
      get_chromaticity gW col = k) :=
  ⟨reachable_gW, by decide, C2_exact_solver_chromatic gW reachable_gW (by decide)⟩


/-- C6: for every constructible non-empty graph the iterative-deepening
loop finds a complete coloring before exhausting
`k = 1 … min(maxDegree + 1, nodeCount)`; the fall-through that would
return an empty result (modelled by `none`) is unreachable. -/
theorem C6_exact_solver_never_falls_through (g : Graph) (hreach : Reachable g)
    (hne : g.nodes ≠ []) :
    ∃ col, brute_force_impl g = some col ∧ ∀ n ∈ g.nodes, (col n).isSome := by
  obtain ⟨k, col, h1, _, h3, _, _, _⟩ :=
    brute_force_impl_spec g (reachable_goodGraph hreach) hne
  refine ⟨col, h1, ?_⟩
  intro n hn
  obtain ⟨c, hc, _⟩ := h3 n hn
  rw [hc]
  rfl


/-- C6 witness: the path `a — b — c`. -/
theorem C6_exact_solver_never_falls_through_witness :
    Reachable gW ∧ gW.nodes ≠ [] ∧
    (∃ col, brute_force_impl gW = some col ∧ ∀ n ∈ gW.nodes, (col n).isSome) :=
  ⟨reachable_gW, by decide,
    C6_exact_solver_never_falls_through gW reachable_gW (by decide)⟩


/-- C3 counterexample: on the single-edge graph `a — b` with the partial
coloring `{a: 1}`, `is_valid_coloring` returns true although the endpoint
`b` has no entry — the claimed "both endpoints present" reading of the
check is false, because `dict.get` yields `None ≠ 1` for the edge. -/
theorem C3_validate_counterexample :
    ¬ (is_valid_coloring gAB colA = true ↔
        ∀ e ∈ get_edges gAB,
          (colA e.1).isSome ∧ (colA e.2).isSome ∧ colA e.1 ≠ colA e.2) := by
  decide


/-- C3 (amended): `validate` returns true iff for every enumerated edge
the two `dict.get` lookups differ — both endpoints present with distinct
colors, or exactly one endpoint present; an edge with *both* endpoints
absent is rejected (`None == None`), and an edge with exactly one absent
endpoint is not a violation.  With no argument it checks the solver's
stored coloring. -/
theorem C3_validate_amended :
    (∀ (g : Graph) (col : Coloring),
      is_valid_coloring g col = true ↔ ∀ e ∈ get_edges g, col e.1 ≠ col e.2) ∧
    (∀ (g : Graph) (st : SolverState),
      is_valid_coloring_entry g st none = is_valid_coloring g st.coloring) :=
  ⟨fun g col => is_valid_coloring_iff g col, fun _ _ => rfl⟩


/-- C3 witness: the amended characterisation at the single-edge graph. -/
theorem C3_validate_amended_witness :
    (is_valid_coloring gAB colA = true ↔ ∀ e ∈ get_edges gAB, colA e.1 ≠ colA e.2) ∧
    (is_valid_coloring_entry gAB initState none =
      is_valid_coloring gAB initState.coloring) :=
  ⟨C3_validate_amended.1 gAB colA, C3_validate_amended.2 gAB initState⟩


/-- C4 counterexample: the Welsh-Powell constructor does *not* fail on a
zero-node graph — it succeeds, returning the fresh solver state. -/
theorem C4_empty_graph_counterexample :
    WelshPowell_init Graph.emptyGraph = Except.ok initState ∧
    ∀ e, WelshPowell_init Graph.emptyGraph ≠ Except.error e :=
  ⟨rfl, fun e h => by simp [WelshPowell_init] at h⟩


/-- C4 (amended): on a zero-node graph the exact solver's entry point
returns the empty coloring with chromatic count 0, and the greedy
constructor rejects the graph with a construction error; the
Welsh-Powell *constructor* succeeds, its rejection happening only when
its color procedure is invoked. -/
theorem C4_empty_graph_amended (g : Graph) (hempty : g.nodes = [])
    (st : SolverState) (t0 t1 t2 t3 : Int) :
    (brute_force_color_graph g initState t0 t1).2 = emptyColoring ∧
    get_chromaticity g (brute_force_color_graph g initState t0 t1).2 = 0 ∧
    (∀ strategy, ∃ e, GreedyColoring_init g strategy = Except.error e) ∧
    WelshPowell_init g = Except.ok initState ∧
    (∃ e, wp_color_graph g st t2 t3 = Except.error e) := by
  have himpl : brute_force_impl g = none := by
    unfold brute_force_impl
    rw [hempty]
    rfl
  have hcol : (brute_force_color_graph g initState t0 t1).2 = emptyColoring := by
    unfold brute_force_color_graph
    rw [himpl]
    rfl
  refine ⟨hcol, ?_, ?_, rfl, ?_⟩
  · rw [hcol]
    unfold get_chromaticity
    rw [hempty]
    rfl
  · intro strategy
    unfold GreedyColoring_init
    rw [if_pos hempty]
    exact ⟨_, rfl⟩
  · unfold wp_color_graph wp_color_graph_impl
    rw [if_pos hempty]
    exact ⟨_, rfl⟩


/-- C4 witness: the empty graph itself. -/
theorem C4_empty_graph_amended_witness :
    Graph.emptyGraph.nodes = [] ∧
    ((brute_force_color_graph Graph.emptyGraph initState 0 1).2 = emptyColoring ∧
    get_chromaticity Graph.emptyGraph
      (brute_force_color_graph Graph.emptyGraph initState 0 1).2 = 0 ∧
    (∀ strategy, ∃ e, GreedyColoring_init Graph.emptyGraph strategy = Except.error e) ∧
    WelshPowell_init Graph.emptyGraph = Except.ok initState ∧
    (∃ e, wp_color_graph Graph.emptyGraph initState 2 3 = Except.error e)) :=
  ⟨rfl, C4_empty_graph_amended Graph.emptyGraph rfl initState 0 1 2 3⟩


/-- C5: calling the color entry point twice in succession on the same
solver instance over an unchanged graph returns identical coloring maps.
The greedy and brute-force entry points recompute from scratch; the
Welsh-Powell implementation never clears its stored coloring, and its
second pass reassigns every node exactly the color it already holds
(`colorPass` is a fixpoint on its own output). -/
theorem C5_color_twice_identical (g : Graph) (hreach : Reachable g)
    (hne : g.nodes ≠ []) (strategy : String) (t0 t1 t2 t3 : Int) :
    ((greedy_color_graph g strategy
        (greedy_color_graph g strategy initState t0 t1).1 t2 t3).2 =
      (greedy_color_graph g strategy initState t0 t1).2) ∧
    (∀ out1, wp_color_graph g initState t0 t1 = Except.ok out1 →
      ∀ out2, wp_color_graph g out1.1 t2 t3 = Except.ok out2 →
        out2.2 = out1.2) ∧
    ((brute_force_color_graph g
        (brute_force_color_graph g initState t0 t1).1 t2 t3).2 =
      (brute_force_color_graph g initState t0 t1).2) := by
  have hg := reachable_goodGraph hreach
  refine ⟨rfl, ?_, ?_⟩
  · intro out1 hout1 out2 hout2
    unfold wp_color_graph wp_color_graph_impl at hout1 hout2
    rw [if_neg hne] at hout1 hout2
    simp only at hout1 hout2
    injection hout1 with hout1
    injection hout2 with hout2
    have h1 : out1.1.coloring = colorPass g (get_sorted_nodes_by_degree g) emptyColoring := by
      rw [← hout1]
      rfl
    have h12 : out1.2 = colorPass g (get_sorted_nodes_by_degree g) emptyColoring := by
      rw [← hout1]
      rfl
    have h22 : out2.2 = colorPass g (get_sorted_nodes_by_degree g) out1.1.coloring := by
      rw [← hout2]
    rw [h22, h1, h12]
    exact colorPass_fixpoint g hg (get_sorted_nodes_by_degree g)
      (fun x => mem_insertionSort _ _ x) (nodup_insertionSort _ _ hg.nodes_nodup)
  · unfold brute_force_color_graph
    cases brute_force_impl g <;> rfl


/-- C5 witness: the path `a — b — c` with the degree strategy. -/
theorem C5_color_twice_identical_witness :
    Reachable gW ∧ gW.nodes ≠ [] ∧
    (((greedy_color_graph gW "degree"
        (greedy_color_graph gW "degree" initState 0 1).1 2 3).2 =
      (greedy_color_graph gW "degree" initState 0 1).2) ∧
    (∀ out1, wp_color_graph gW initState 0 1 = Except.ok out1 →
      ∀ out2, wp_color_graph gW out1.1 2 3 = Except.ok out2 →
        out2.2 = out1.2) ∧
    ((brute_force_color_graph gW
        (brute_force_color_graph gW initState 0 1).1 2 3).2 =
      (brute_force_color_graph gW initState 0 1).2)) :=
  ⟨reachable_gW, by decide,
    C5_color_twice_identical gW reachable_gW (by decide) "degree" 0 1 2 3⟩


/-- C7: the greedy solver's overriding `color_graph` reads the start
timestamp but never writes `self.execution_time`, so after any greedy
call `get_execution_time` still returns the previous value (0.0 on a
fresh instance) rather than the elapsed duration — here a call of
duration 5 leaves it at 0 — while the inherited entry point used by the
brute-force (and Welsh-Powell) solver does record `t1 - t0`. -/
theorem C7_greedy_timing_not_recorded :
    (∀ (g : Graph) (strategy : String) (st : SolverState) (t0 t1 : Int),
      ((greedy_color_graph g strategy st t0 t1).1).execution_time = st.execution_time) ∧
    ((greedy_color_graph gW "natural" initState 0 5).1.execution_time = 0 ∧
      (0 : Int) ≠ 5) ∧
    (∀ (g : Graph) (st : SolverState) (t0 t1 : Int),
      (brute_force_color_graph g st t0 t1).1.execution_time = t1 - t0) := by
  refine ⟨fun _ _ _ _ _ => rfl, ⟨rfl, by decide⟩, ?_⟩
  intro g st t0 t1
  unfold brute_force_color_graph
  cases brute_force_impl g <;> rfl


/-- C8: every graph reachable from the empty graph by `add_node` /
`add_edge` satisfies the four structural invariants: no self-neighbors,
symmetric adjacency, duplicate-free neighbor lists (re-adding an existing
edge is a no-op returning the unchanged graph, not an error), and every
listed neighbor is a member of the node set. -/
theorem C8_graph_invariants (g : Graph) (hreach : Reachable g) :
    (∀ n, n ∉ get_neighbors g n) ∧
    (∀ a b, b ∈ get_neighbors g a → a ∈ get_neighbors g b) ∧
    (∀ n, (get_neighbors g n).Nodup) ∧
    (∀ n1 n2, n2 ∈ get_neighbors g n1 → add_edge g n1 n2 = Except.ok g) ∧
    (∀ a b, b ∈ get_neighbors g a → b ∈ g.nodes) := by
  have hg := reachable_goodGraph hreach
  refine ⟨hg.no_self, hg.symm, hg.nbr_nodup, ?_, hg.nbr_mem⟩
  intro n1 n2 hmem
  have h1 : n1 ∈ g.nodes := mem_nodes_of_mem_neighbors g hg n1 n2 hmem
  have h2 : n2 ∈ g.nodes := hg.nbr_mem n1 n2 hmem
  have hne12 : n1 ≠ n2 := by
    intro he
    rw [← he] at hmem
    exact hg.no_self n1 hmem
  unfold add_edge
  rw [if_neg (by simpa using h1), if_neg (by simpa using h2), if_neg hne12,
    if_pos (show n2 ∈ alGet g.adjacency_list n1 from hmem)]


/-- C8 witness: the path `a — b — c`. -/
theorem C8_graph_invariants_witness :
    Reachable gW ∧
    ((∀ n, n ∉ get_neighbors gW n) ∧
    (∀ a b, b ∈ get_neighbors gW a → a ∈ get_neighbors gW b) ∧
    (∀ n, (get_neighbors gW n).Nodup) ∧
    (∀ n1 n2, n2 ∈ get_neighbors gW n1 → add_edge gW n1 n2 = Except.ok gW) ∧
    (∀ a b, b ∈ get_neighbors gW a → b ∈ gW.nodes)) :=
  ⟨reachable_gW, C8_graph_invariants gW reachable_gW⟩


/-- C9: `get_edges` enumerates each undirected edge exactly once — the
edge list has no duplicates, and a pair `(a, b)` appears iff `b` is a
neighbor of `a` and `a`'s id is lexicographically smaller under Python's
string comparison (used even for numeric-looking ids, cf. `gNum_edges`). -/
theorem C9_get_edges_dedup_smaller_first (g : Graph) (hreach : Reachable g) :
    (∀ a b, (a, b) ∈ get_edges g ↔ b ∈ get_neighbors g a ∧ strLt a b = true) ∧
    (get_edges g).Nodup := by
  have hg := reachable_goodGraph hreach
  exact ⟨fun a b => mem_get_edges g hg a b, get_edges_nodup g hg⟩


/-- C9 witness: the graph with ids `"2"` and `"10"`, where string
comparison puts `"10"` first. -/
theorem C9_get_edges_dedup_smaller_first_witness :
    Reachable gNum ∧
    ((∀ a b, (a, b) ∈ get_edges gNum ↔ b ∈ get_neighbors gNum a ∧ strLt a b = true) ∧
    (get_edges gNum).Nodup) :=
  ⟨reachable_gNum, C9_get_edges_dedup_smaller_first gNum reachable_gNum⟩


/-- C10: on every non-empty graph the greedy solver with the `'degree'`
strategy computes exactly the same coloring map as the Welsh-Powell
solver's first call: both sort by descending degree with ascending-id
tie-break and then first-fit from the empty stored coloring. -/
theorem C10_greedy_degree_eq_welsh_powell (g : Graph) (hne : g.nodes ≠ [])
    (stG : SolverState) (t0 t1 t2 t3 : Int) :
    ∃ out, wp_color_graph g initState t2 t3 = Except.ok out ∧
      (greedy_color_graph g "degree" stG t0 t1).2 = out.2 := by
  unfold wp_color_graph wp_color_graph_impl
  rw [if_neg hne]
  refine ⟨_, rfl, ?_⟩
  show greedy_compute g "degree" =
    colorPass g (get_sorted_nodes_by_degree g) initState.coloring
  unfold greedy_compute
  rw [if_neg (by decide : ¬ ("degree" : String) = "natural")]
  rfl


/-- C10 witness: the path `a — b — c`. -/
theorem C10_greedy_degree_eq_welsh_powell_witness :
    gW.nodes ≠ [] ∧
    (∃ out, wp_color_graph gW initState 2 3 = Except.ok out ∧
      (greedy_color_graph gW "degree" initState 0 1).2 = out.2) :=
  ⟨by decide, C10_greedy_degree_eq_welsh_powell gW (by decide) initState 0 1 2 3⟩
